import Mathlib

/-!
Verification of the volatility-estimation and option-pricing engine of
`FullBlackScholes.py` (Black-Scholes prices and Greeks with NaN / zero-sigma
guards, GARCH volatility with standard-deviation fallback).

Floating-point numbers are idealized as real numbers together with an explicit
`nan` marker (type `RF` below), mirroring how `np.isnan` guards and NaN
propagation behave in the source.  IEEE infinities (which arise only outside
every claim's input domain, e.g. `log 0` or division by exactly 0) are
collapsed into `nan`.
-/

open MeasureTheory

/-- Standard normal density, `scipy.stats.norm.pdf`. -/
noncomputable def normPdf (x : ℝ) : ℝ :=
  (Real.sqrt (2 * Real.pi))⁻¹ * Real.exp (-(x ^ 2) / 2)

/-- Standard normal cumulative distribution, `scipy.stats.norm.cdf`. -/
noncomputable def normCdf (x : ℝ) : ℝ :=
  ∫ t in Set.Iic x, normPdf t

/-- A Python/numpy float idealized as a real number or NaN. -/
inductive RF where
  | nan : RF
  | val : ℝ → RF

/-- `np.isnan`. -/
def RF.isnan : RF → Prop
  | RF.nan => True
  | RF.val _ => False

instance : DecidablePred RF.isnan := fun x =>
  match x with
  | RF.nan => Decidable.isTrue True.intro
  | RF.val _ => Decidable.isFalse fun h => h

/-- NaN-propagating addition. -/
def RF.add : RF → RF → RF
  | RF.val a, RF.val b => RF.val (a + b)
  | _, _ => RF.nan

/-- NaN-propagating subtraction. -/
def RF.sub : RF → RF → RF
  | RF.val a, RF.val b => RF.val (a - b)
  | _, _ => RF.nan

/-- NaN-propagating multiplication. -/
def RF.mul : RF → RF → RF
  | RF.val a, RF.val b => RF.val (a * b)
  | _, _ => RF.nan

/-- NaN-propagating negation. -/
def RF.neg : RF → RF
  | RF.val a => RF.val (-a)
  | RF.nan => RF.nan

instance : Add RF := ⟨RF.add⟩

instance : Sub RF := ⟨RF.sub⟩

instance : Mul RF := ⟨RF.mul⟩

instance : Neg RF := ⟨RF.neg⟩

open Classical in
/-- Plain float division `a / b`; a zero divisor yields an IEEE infinity in
numpy, collapsed here to `nan` (reached by no claim's input domain). -/
noncomputable def RF.div : RF → RF → RF
  | RF.val a, RF.val b => if b = 0 then RF.nan else RF.val (a / b)
  | _, _ => RF.nan

open Classical in
/-- `np.log`: NaN on a negative argument, and `log 0 = -inf` collapsed to
`nan` (reached by no claim's input domain). -/
noncomputable def RF.log : RF → RF
  | RF.val a => if 0 < a then RF.val (Real.log a) else RF.nan
  | RF.nan => RF.nan

open Classical in
/-- `np.sqrt`: NaN on a negative argument. -/
noncomputable def RF.sqrt : RF → RF
  | RF.val a => if 0 ≤ a then RF.val (Real.sqrt a) else RF.nan
  | RF.nan => RF.nan

/-- `np.exp`. -/
noncomputable def RF.exp : RF → RF
  | RF.val a => RF.val (Real.exp a)
  | RF.nan => RF.nan

/-- `norm.cdf` lifted to floats (NaN in, NaN out). -/
noncomputable def RF.cdf : RF → RF
  | RF.val a => RF.val (normCdf a)
  | RF.nan => RF.nan

/-- `norm.pdf` lifted to floats (NaN in, NaN out). -/
noncomputable def RF.pdf : RF → RF
  | RF.val a => RF.val (normPdf a)
  | RF.nan => RF.nan

/-- Comparison on floats: holds only when both sides are defined and ≤ holds
(any comparison against NaN is false). -/
def RF.le : RF → RF → Prop
  | RF.val a, RF.val b => a ≤ b
  | _, _ => False

open Classical in
/-- `safe_divide(num, denom)` from the source: `if denom == 0: return 0` and
otherwise `num / denom`.  The Python `==` comparison is false when `denom` is
NaN, so a NaN denominator falls through to the division and yields NaN; a NaN
numerator over a zero denominator yields 0. -/
noncomputable def safe_divide : RF → RF → RF
  | num, RF.val d =>
      if d = 0 then RF.val 0 else
        match num with
        | RF.nan => RF.nan
        | RF.val n => RF.val (n / d)
  | _, RF.nan => RF.nan

/-- Option convention selector. -/
inductive OptionType where
  | call : OptionType
  | put : OptionType
deriving DecidableEq

open Classical in
/-- `black_scholes(S, K, T, r, sigma, option_type)` from the source. -/
noncomputable def black_scholes (S K T r sigma : RF) (ot : OptionType) : RF :=
  if S.isnan ∨ K.isnan ∨ T.isnan ∨ r.isnan ∨ sigma.isnan ∨ sigma = RF.val 0 then
    RF.val 0
  else
    let d1 := safe_divide (RF.log (S.div K) + (r + RF.val 0.5 * (sigma * sigma)) * T)
      (sigma * RF.sqrt T)
    let d2 := d1 - sigma * RF.sqrt T
    match ot with
    | OptionType.call => S * RF.cdf d1 - K * RF.exp (-(r * T)) * RF.cdf d2
    | OptionType.put => K * RF.exp (-(r * T)) * RF.cdf (-d2) - S * RF.cdf (-d1)

/-- One row of Greeks for a single strike. -/
structure GreekRow where
  delta : RF
  gamma : RF
  theta : RF
  vega : RF
  rho : RF

open Classical in
/-- The loop body of `calculate_greeks` for one strike `K`: the NaN guard
(`S`, `sigma`, `T`, `r`; the strike itself is not checked) followed by the
five Greek formulas. -/
noncomputable def greekRow (S T r sigma : RF) (ot : OptionType) (K : RF) : GreekRow :=
  if S.isnan ∨ sigma.isnan ∨ T.isnan ∨ r.isnan then
    ⟨RF.nan, RF.nan, RF.nan, RF.nan, RF.nan⟩
  else
    let d1 := safe_divide (RF.log (S.div K) + (r + RF.val 0.5 * (sigma * sigma)) * T)
      (sigma * RF.sqrt T)
    let d2 := d1 - sigma * RF.sqrt T
    { delta := match ot with
        | OptionType.call => RF.cdf d1
        | OptionType.put => RF.cdf d1 - RF.val 1
      gamma := safe_divide (RF.pdf d1) (S * sigma * RF.sqrt T)
      theta := -(safe_divide (S * RF.pdf d1 * sigma) (RF.val 2 * RF.sqrt T)) -
        r * K * RF.exp (-(r * T)) * RF.cdf d2
      vega := safe_divide (S * RF.pdf d1 * RF.sqrt T) (RF.val 100)
      rho := safe_divide
        (K * T * RF.exp (-(r * T)) *
          (match ot with
           | OptionType.call => RF.cdf d2
           | OptionType.put => -(RF.cdf (-d2))))
        (RF.val 100) }

/-- The five parallel result lists of `calculate_greeks`. -/
structure GreeksResult where
  Delta : List RF
  Gamma : List RF
  Theta : List RF
  Vega : List RF
  Rho : List RF

/-- `calculate_greeks(S, Ks, T, r, sigma, option_type)` from the source: one
`greekRow` appended per strike, in input order. -/
noncomputable def calculate_greeks (S : RF) (Ks : List RF) (T r sigma : RF)
    (ot : OptionType) : GreeksResult :=
  { Delta := Ks.map fun K => (greekRow S T r sigma ot K).delta
    Gamma := Ks.map fun K => (greekRow S T r sigma ot K).gamma
    Theta := Ks.map fun K => (greekRow S T r sigma ot K).theta
    Vega := Ks.map fun K => (greekRow S T r sigma ot K).vega
    Rho := Ks.map fun K => (greekRow S T r sigma ot K).rho }

/-- Arithmetic mean of a list, as in `np.std`'s centering step. -/
noncomputable def listMean (xs : List ℝ) : ℝ := xs.sum / xs.length

/-- `np.std` with its default `ddof=0`: population standard deviation. -/
noncomputable def np_std (xs : List ℝ) : ℝ :=
  Real.sqrt (((xs.map fun x => (x - listMean xs) ^ 2).sum) / xs.length)

/-- `Series.dropna`: the defined entries of a float series, in order. -/
def cleanReturns (xs : List RF) : List ℝ :=
  xs.filterMap fun x =>
    match x with
    | RF.nan => none
    | RF.val v => some v

/-- `get_garch_volatility(returns)` from the source, with the external
`arch_model(...).fit()`/forecast step abstracted as a fallible oracle `fit`
mapping the scaled return series to a forecasted variance or an error.  The
`try`/`except` around fitting becomes the `match` on the oracle's outcome:
any fitting error yields `none` (the Python `return None`). -/
noncomputable def get_garch_volatility (fit : List ℝ → Except String ℝ)
    (returns : List ℝ) : Option ℝ :=
  let scale : ℝ := 100
  let scaledReturns := returns.map fun x => x * scale
  match fit scaledReturns with
  | Except.error _ => none
  | Except.ok forecastedVariance =>
      some (Real.sqrt forecastedVariance / scale * Real.sqrt 252)

/-- `calculate_annualized_volatility(hist_data)` from the source, taking the
daily return series after `pct_change()` (which may contain NaN entries, e.g.
its leading entry) and before `dropna()`.  After `dropna()` the series holds
no NaN, so the source's `empty or isnull().all()` test reduces to emptiness. -/
noncomputable def calculate_annualized_volatility (fit : List ℝ → Except String ℝ)
    (raw : List RF) : RF :=
  let daily_returns := cleanReturns raw
  if daily_returns.isEmpty then RF.nan
  else if daily_returns.length > 30 then
    match get_garch_volatility fit daily_returns with
    | some v => RF.val v
    | none => RF.val (np_std daily_returns * Real.sqrt 252)
  else RF.val (np_std daily_returns * Real.sqrt 252)

/-- The `d1` auxiliary of `black_scholes` on the non-degenerate domain
(`sigma * sqrt T` nonzero), where `safe_divide` is plain division. -/
noncomputable def d1R (S K T r sigma : ℝ) : ℝ :=
  (Real.log (S / K) + (r + 0.5 * (sigma * sigma)) * T) / (sigma * Real.sqrt T)

/-- The `d2` auxiliary, `d1 - sigma * sqrt T`. -/
noncomputable def d2R (S K T r sigma : ℝ) : ℝ := d1R S K T r sigma - sigma * Real.sqrt T

/-- The call branch of `black_scholes` on the non-degenerate domain. -/
noncomputable def bsCallR (S K T r sigma : ℝ) : ℝ :=
  S * normCdf (d1R S K T r sigma) - K * Real.exp (-(r * T)) * normCdf (d2R S K T r sigma)

/-- The put branch of `black_scholes` on the non-degenerate domain. -/
noncomputable def bsPutR (S K T r sigma : ℝ) : ℝ :=
  K * Real.exp (-(r * T)) * normCdf (-d2R S K T r sigma) - S * normCdf (-d1R S K T r sigma)

/-! ### Basic facts about the RF float model -/

@[simp] theorem RF.isnan_val (a : ℝ) : RF.isnan (RF.val a) = False := rfl

@[simp] theorem RF.isnan_nan : RF.isnan RF.nan = True := rfl

@[simp] theorem RF.val_ne_nan (a : ℝ) : RF.val a ≠ RF.nan := fun h => RF.noConfusion h

@[simp] theorem RF.val_mul (a b : ℝ) : RF.val a * RF.val b = RF.val (a * b) := rfl

@[simp] theorem RF.val_add (a b : ℝ) : RF.val a + RF.val b = RF.val (a + b) := rfl

@[simp] theorem RF.val_sub (a b : ℝ) : RF.val a - RF.val b = RF.val (a - b) := rfl

@[simp] theorem RF.val_neg (a : ℝ) : -(RF.val a) = RF.val (-a) := rfl

@[simp] theorem RF.le_val (a b : ℝ) : RF.le (RF.val a) (RF.val b) ↔ a ≤ b := Iff.rfl

/-! ### The standard normal density and distribution function -/

theorem sqrt_two_pi_pos : 0 < Real.sqrt (2 * Real.pi) :=
  Real.sqrt_pos.mpr (by linarith [Real.pi_pos])

theorem normPdf_eq (x : ℝ) :
    normPdf x = (Real.sqrt (2 * Real.pi))⁻¹ * Real.exp (-(1 / 2 : ℝ) * x ^ 2) := by
  unfold normPdf
  ring_nf

theorem normPdf_pos (x : ℝ) : 0 < normPdf x :=
  mul_pos (inv_pos.mpr sqrt_two_pi_pos) (Real.exp_pos _)

theorem normPdf_nonneg (x : ℝ) : 0 ≤ normPdf x := le_of_lt (normPdf_pos x)

theorem normPdf_neg (x : ℝ) : normPdf (-x) = normPdf x := by
  unfold normPdf
  rw [neg_sq]

theorem continuous_normPdf : Continuous normPdf := by
  unfold normPdf
  fun_prop

theorem integrable_normPdf : Integrable normPdf := by
  have h : Integrable (fun x : ℝ => Real.exp (-(1 / 2 : ℝ) * x ^ 2)) :=
    integrable_exp_neg_mul_sq (by norm_num)
  have h2 := h.const_mul ((Real.sqrt (2 * Real.pi))⁻¹)
  have hfun : normPdf = fun x : ℝ =>
      (Real.sqrt (2 * Real.pi))⁻¹ * Real.exp (-(1 / 2 : ℝ) * x ^ 2) := funext normPdf_eq
  rw [hfun]
  exact h2

theorem integral_normPdf : (∫ x : ℝ, normPdf x) = 1 := by
  have hfun : normPdf = fun x : ℝ =>
      (Real.sqrt (2 * Real.pi))⁻¹ * Real.exp (-(1 / 2 : ℝ) * x ^ 2) := funext normPdf_eq
  rw [hfun, integral_mul_left, integral_gaussian]
  have h2 : Real.pi / (1 / 2 : ℝ) = 2 * Real.pi := by ring
  rw [h2]
  exact inv_mul_cancel₀ (ne_of_gt sqrt_two_pi_pos)

theorem normCdf_nonneg (x : ℝ) : 0 ≤ normCdf x :=
  setIntegral_nonneg measurableSet_Iic fun t _ => normPdf_nonneg t

theorem normCdf_neg_eq_Ioi (x : ℝ) : normCdf (-x) = ∫ t in Set.Ioi x, normPdf t := by
  unfold normCdf
  have h := integral_comp_neg_Ioi x normPdf
  simp only [normPdf_neg] at h
  exact h.symm

theorem normCdf_add_normCdf_neg (x : ℝ) : normCdf x + normCdf (-x) = 1 := by
  rw [normCdf_neg_eq_Ioi]
  unfold normCdf
  rw [intervalIntegral.integral_Iic_add_Ioi integrable_normPdf.integrableOn
    integrable_normPdf.integrableOn, integral_normPdf]

theorem normCdf_zero : normCdf 0 = 1 / 2 := by
  have h := normCdf_add_normCdf_neg 0
  rw [neg_zero] at h
  linarith

theorem normCdf_mono : Monotone normCdf := by
  intro a b hab
  unfold normCdf
  exact setIntegral_mono_set integrable_normPdf.integrableOn
    (Filter.Eventually.of_forall normPdf_nonneg)
    (HasSubset.Subset.eventuallyLE (Set.Iic_subset_Iic.mpr hab))

theorem normCdf_sub_normCdf (a b : ℝ) : normCdf b - normCdf a = ∫ t in a..b, normPdf t :=
  intervalIntegral.integral_Iic_sub_Iic integrable_normPdf.integrableOn
    integrable_normPdf.integrableOn

theorem hasDerivAt_normCdf (x : ℝ) : HasDerivAt normCdf (normPdf x) x := by
  have hd : HasDerivAt (fun u => ∫ t in (0 : ℝ)..u, normPdf t) (normPdf x) x :=
    intervalIntegral.integral_hasDerivAt_right integrable_normPdf.intervalIntegrable
      continuous_normPdf.aestronglyMeasurable.stronglyMeasurableAtFilter
      continuous_normPdf.continuousAt
  have heq : normCdf = fun y => normCdf 0 + ∫ t in (0 : ℝ)..y, normPdf t := by
    funext y
    rw [← normCdf_sub_normCdf 0 y]
    ring
  rw [heq]
  exact hd.const_add (normCdf 0)

/-! ### Helper lemmas shared by several claims -/

theorem greekRow_nan_guard (S T r sigma : RF) (ot : OptionType) (K : RF)
    (h : S.isnan ∨ sigma.isnan ∨ T.isnan ∨ r.isnan) :
    greekRow S T r sigma ot K = ⟨RF.nan, RF.nan, RF.nan, RF.nan, RF.nan⟩ := by
  unfold greekRow
  rw [if_pos h]

theorem greekRow_theta_eq (S T r sigma K : RF) (o1 o2 : OptionType) :
    (greekRow S T r sigma o1 K).theta = (greekRow S T r sigma o2 K).theta := by
  unfold greekRow
  by_cases hg : S.isnan ∨ sigma.isnan ∨ T.isnan ∨ r.isnan
  · rw [if_pos hg, if_pos hg]
  · rw [if_neg hg, if_neg hg]

theorem greekRow_gamma_eq (S T r sigma K : RF) (o1 o2 : OptionType) :
    (greekRow S T r sigma o1 K).gamma = (greekRow S T r sigma o2 K).gamma := by
  unfold greekRow
  by_cases hg : S.isnan ∨ sigma.isnan ∨ T.isnan ∨ r.isnan
  · rw [if_pos hg, if_pos hg]
  · rw [if_neg hg, if_neg hg]

theorem greekRow_vega_eq (S T r sigma K : RF) (o1 o2 : OptionType) :
    (greekRow S T r sigma o1 K).vega = (greekRow S T r sigma o2 K).vega := by
  unfold greekRow
  by_cases hg : S.isnan ∨ sigma.isnan ∨ T.isnan ∨ r.isnan
  · rw [if_pos hg, if_pos hg]
  · rw [if_neg hg, if_neg hg]

theorem cleanReturns_eq_nil (raw : List RF) (h : raw = [] ∨ ∀ x ∈ raw, x.isnan) :
    cleanReturns raw = [] := by
  rcases h with rfl | hall
  · rfl
  · unfold cleanReturns
    rw [List.filterMap_eq_nil_iff]
    intro a ha
    cases a with
    | nan => rfl
    | val v => exact absurd (hall _ ha) (by simp)

theorem volatility_fallback_of_no_garch (fit : List ℝ → Except String ℝ) (raw : List RF)
    (hne : cleanReturns raw ≠ [])
    (h : (cleanReturns raw).length ≤ 30 ∨ get_garch_volatility fit (cleanReturns raw) = none) :
    calculate_annualized_volatility fit raw =
      RF.val (np_std (cleanReturns raw) * Real.sqrt 252) := by
  have hemp : (cleanReturns raw).isEmpty = false := by
    simpa [List.isEmpty_iff] using hne
  by_cases hlen : (cleanReturns raw).length > 30
  · rcases h with h30 | hnone
    · omega
    · simp [calculate_annualized_volatility, hemp, hlen, hnone]
  · simp [calculate_annualized_volatility, hemp, hlen]

theorem get_garch_volatility_error (fit : List ℝ → Except String ℝ) (returns : List ℝ)
    (e : String) (hfit : fit (returns.map fun x => x * 100) = Except.error e) :
    get_garch_volatility fit returns = none := by
  simp [get_garch_volatility, hfit]

/-! ### Claim theorems -/

/-- C2: if any of S, K, T, r, sigma is NaN, or sigma = 0, then `black_scholes`
returns exactly 0, for both the call and the put convention, and (being a
total function) does not fault. -/
theorem black_scholes_degenerate_zero (S K T r sigma : RF) (ot : OptionType)
    (h : S.isnan ∨ K.isnan ∨ T.isnan ∨ r.isnan ∨ sigma.isnan ∨ sigma = RF.val 0) :
    black_scholes S K T r sigma ot = RF.val 0 := by
  unfold black_scholes
  rw [if_pos h]

/-- Witness for C2: the spec's concrete scenario S=100, K=150, T=0.5, r=0.02,
sigma=0 prices to 0 for both conventions. -/
theorem black_scholes_degenerate_zero_witness :
    black_scholes (RF.val 100) (RF.val 150) (RF.val 0.5) (RF.val 0.02) (RF.val 0)
      OptionType.call = RF.val 0 ∧
    black_scholes (RF.val 100) (RF.val 150) (RF.val 0.5) (RF.val 0.02) (RF.val 0)
      OptionType.put = RF.val 0 :=
  ⟨black_scholes_degenerate_zero _ _ _ _ _ _
      (Or.inr (Or.inr (Or.inr (Or.inr (Or.inr rfl))))),
   black_scholes_degenerate_zero _ _ _ _ _ _
      (Or.inr (Or.inr (Or.inr (Or.inr (Or.inr rfl)))))⟩

/-- C4: each of the five Greek result lists has exactly the length of the
input strike list, for every input (valid or not). -/
theorem calculate_greeks_lengths (S : RF) (Ks : List RF) (T r sigma : RF) (ot : OptionType) :
    (calculate_greeks S Ks T r sigma ot).Delta.length = Ks.length ∧
    (calculate_greeks S Ks T r sigma ot).Gamma.length = Ks.length ∧
    (calculate_greeks S Ks T r sigma ot).Theta.length = Ks.length ∧
    (calculate_greeks S Ks T r sigma ot).Vega.length = Ks.length ∧
    (calculate_greeks S Ks T r sigma ot).Rho.length = Ks.length := by
  simp [calculate_greeks]

/-- C8: the Theta formula in `calculate_greeks` does not branch on the option
type, and neither do Gamma and Vega: the three sequences coincide between the
call and the put convention on identical inputs. -/
theorem calculate_greeks_theta_gamma_vega_type_free (S : RF) (Ks : List RF) (T r sigma : RF) :
    (calculate_greeks S Ks T r sigma OptionType.call).Theta =
      (calculate_greeks S Ks T r sigma OptionType.put).Theta ∧
    (calculate_greeks S Ks T r sigma OptionType.call).Gamma =
      (calculate_greeks S Ks T r sigma OptionType.put).Gamma ∧
    (calculate_greeks S Ks T r sigma OptionType.call).Vega =
      (calculate_greeks S Ks T r sigma OptionType.put).Vega := by
  refine ⟨?_, ?_, ?_⟩ <;> simp only [calculate_greeks] <;> (congr 1; funext K)
  · exact greekRow_theta_eq S T r sigma K OptionType.call OptionType.put
  · exact greekRow_gamma_eq S T r sigma K OptionType.call OptionType.put
  · exact greekRow_vega_eq S T r sigma K OptionType.call OptionType.put

/-- C9: on an input return series that is empty or consists only of NaN
entries, volatility estimation returns NaN (and, being total, never faults). -/
theorem volatility_empty_or_all_nan (fit : List ℝ → Except String ℝ) (raw : List RF)
    (h : raw = [] ∨ ∀ x ∈ raw, x.isnan) :
    calculate_annualized_volatility fit raw = RF.nan := by
  have hclean := cleanReturns_eq_nil raw h
  simp [calculate_annualized_volatility, hclean]

/-- Witness for C9: the empty series. -/
theorem volatility_empty_or_all_nan_witness :
    calculate_annualized_volatility (fun _ => Except.error "no data") [] = RF.nan :=
  volatility_empty_or_all_nan _ _ (Or.inl rfl)

/-- C5: on a non-empty return series of length at most 30, or whenever the
GARCH fit fails, volatility estimation takes the fallback path and returns
exactly the (population) standard deviation of the series times √252. -/
theorem volatility_fallback_stdev (fit : List ℝ → Except String ℝ) (raw : List RF)
    (hne : cleanReturns raw ≠ [])
    (h : (cleanReturns raw).length ≤ 30 ∨
      ∃ e, fit ((cleanReturns raw).map fun x => x * 100) = Except.error e) :
    calculate_annualized_volatility fit raw =
      RF.val (np_std (cleanReturns raw) * Real.sqrt 252) := by
  refine volatility_fallback_of_no_garch fit raw hne ?_
  rcases h with h30 | ⟨e, he⟩
  · exact Or.inl h30
  · exact Or.inr (get_garch_volatility_error fit _ e he)

/-- Witness for C5: a three-entry series (leading NaN from `pct_change`) of
cleaned length 2 ≤ 30 falls back to the standard-deviation estimate. -/
theorem volatility_fallback_stdev_witness :
    calculate_annualized_volatility (fun _ => Except.error "fit failed")
      [RF.nan, RF.val 0.01, RF.val (-0.02)] =
      RF.val (np_std [0.01, -0.02] * Real.sqrt 252) := by
  have h := volatility_fallback_stdev (fun _ => Except.error "fit failed")
    [RF.nan, RF.val 0.01, RF.val (-0.02)]
    (by simp [cleanReturns]) (Or.inl (by simp [cleanReturns]))
  simpa [cleanReturns] using h

/-- C6: a GARCH fitting error is absorbed locally: `get_garch_volatility`
returns `None` (the Python `except` branch), and the estimator then returns
the standard-deviation fallback; no fitting error reaches the caller (all
functions involved are total). -/
theorem garch_failure_fallback (fit : List ℝ → Except String ℝ) (raw : List RF) (e : String)
    (hfit : fit ((cleanReturns raw).map fun x => x * 100) = Except.error e) :
    get_garch_volatility fit (cleanReturns raw) = none ∧
    (cleanReturns raw ≠ [] →
      calculate_annualized_volatility fit raw =
        RF.val (np_std (cleanReturns raw) * Real.sqrt 252)) := by
  have hnone := get_garch_volatility_error fit _ e hfit
  exact ⟨hnone, fun hne => volatility_fallback_of_no_garch fit raw hne (Or.inr hnone)⟩

/-- Witness for C6: a concrete two-entry series with an always-failing fit. -/
theorem garch_failure_fallback_witness :
    get_garch_volatility (fun _ => Except.error "nonconvergence")
      (cleanReturns [RF.val 0.01, RF.val 0.03]) = none ∧
    calculate_annualized_volatility (fun _ => Except.error "nonconvergence")
      [RF.val 0.01, RF.val 0.03] =
      RF.val (np_std (cleanReturns [RF.val 0.01, RF.val 0.03]) * Real.sqrt 252) := by
  have h := garch_failure_fallback (fun _ => Except.error "nonconvergence")
    [RF.val 0.01, RF.val 0.03] "nonconvergence" rfl
  exact ⟨h.1, h.2 (by simp [cleanReturns])⟩

/-- Bridge: on the defined domain with positive spot, strike and tenor and a
nonzero volatility, `black_scholes` computes exactly the closed forms
`bsCallR`/`bsPutR`. -/
theorem black_scholes_eq_bsR (S K T r sigma : ℝ) (hS : 0 < S) (hK : 0 < K) (hT : 0 < T)
    (hsig : sigma ≠ 0) :
    black_scholes (RF.val S) (RF.val K) (RF.val T) (RF.val r) (RF.val sigma) OptionType.call =
      RF.val (bsCallR S K T r sigma) ∧
    black_scholes (RF.val S) (RF.val K) (RF.val T) (RF.val r) (RF.val sigma) OptionType.put =
      RF.val (bsPutR S K T r sigma) := by
  have hKne : K ≠ 0 := ne_of_gt hK
  have hSK : 0 < S / K := div_pos hS hK
  have hTnn : (0 : ℝ) ≤ T := le_of_lt hT
  have hsqT : Real.sqrt T ≠ 0 := ne_of_gt (Real.sqrt_pos.mpr hT)
  have hden : sigma * Real.sqrt T ≠ 0 := mul_ne_zero hsig hsqT
  constructor <;>
    simp [black_scholes, RF.div, RF.log, RF.sqrt, RF.cdf, RF.exp, safe_divide, hKne, hSK,
      hTnn, hden, hsig, d1R, d2R, bsCallR, bsPutR]

/-- C3: put-call parity. On the defined domain (positive spot and strike from
`PricingInputs`, sigma > 0, T > 0) the call and put prices of `black_scholes`
satisfy call − put = S − K·e^(−rT), exactly in real arithmetic. -/
theorem black_scholes_put_call_parity (S K T r sigma : ℝ) (hS : 0 < S) (hK : 0 < K)
    (hT : 0 < T) (hsig : 0 < sigma) :
    black_scholes (RF.val S) (RF.val K) (RF.val T) (RF.val r) (RF.val sigma) OptionType.call -
      black_scholes (RF.val S) (RF.val K) (RF.val T) (RF.val r) (RF.val sigma) OptionType.put =
      RF.val (S - K * Real.exp (-(r * T))) := by
  obtain ⟨hc, hp⟩ := black_scholes_eq_bsR S K T r sigma hS hK hT (ne_of_gt hsig)
  rw [hc, hp, RF.val_sub]
  congr 1
  have h1 := normCdf_add_normCdf_neg (d1R S K T r sigma)
  have h2 := normCdf_add_normCdf_neg (d2R S K T r sigma)
  unfold bsCallR bsPutR
  linear_combination S * h1 - K * Real.exp (-(r * T)) * h2

/-- Witness for C3 at S=100, K=100, T=1, r=0.02, sigma=0.2. -/
theorem black_scholes_put_call_parity_witness :
    black_scholes (RF.val 100) (RF.val 100) (RF.val 1) (RF.val 0.02) (RF.val 0.2)
        OptionType.call -
      black_scholes (RF.val 100) (RF.val 100) (RF.val 1) (RF.val 0.02) (RF.val 0.2)
        OptionType.put =
      RF.val (100 - 100 * Real.exp (-(0.02 * 1))) :=
  black_scholes_put_call_parity 100 100 1 0.02 0.2 (by norm_num) (by norm_num)
    (by norm_num) (by norm_num)

/-- C10: at T = 0 with positive, defined inputs, `safe_divide` silently turns
d1 and d2 into 0, so `black_scholes` returns (S−K)/2 for the call and
(K−S)/2 for the put — the midpoint, not the intrinsic value max(S−K,0) /
max(K−S,0), and negative whenever the option is out of the money. -/
theorem black_scholes_expiry_midpoint (S K r sigma : ℝ) (_hS : 0 < S) (_hK : 0 < K)
    (hsig : 0 < sigma) :
    black_scholes (RF.val S) (RF.val K) (RF.val 0) (RF.val r) (RF.val sigma)
      OptionType.call = RF.val ((S - K) / 2) ∧
    black_scholes (RF.val S) (RF.val K) (RF.val 0) (RF.val r) (RF.val sigma)
      OptionType.put = RF.val ((K - S) / 2) := by
  have hsigne : sigma ≠ 0 := ne_of_gt hsig
  constructor <;>
    · simp [black_scholes, RF.sqrt, RF.cdf, RF.exp, safe_divide, hsigne, normCdf_zero]
      ring

/-- Witness for C10: S=100, K=150 at expiry prices the call at −25 and the
put at 25. -/
theorem black_scholes_expiry_midpoint_witness :
    black_scholes (RF.val 100) (RF.val 150) (RF.val 0) (RF.val 0.02) (RF.val 0.2)
      OptionType.call = RF.val ((100 - 150) / 2) ∧
    black_scholes (RF.val 100) (RF.val 150) (RF.val 0) (RF.val 0.02) (RF.val 0.2)
      OptionType.put = RF.val ((150 - 100) / 2) :=
  black_scholes_expiry_midpoint 100 150 0.02 0.2 (by norm_num) (by norm_num) (by norm_num)

/-- C1 is refuted at sigma = 0: with S=100, K=100, T=0.5, r=0.02, sigma=0
(all defined), the guard in `calculate_greeks` — which tests only NaN-ness of
S, sigma, T, r — is not taken; `safe_divide` turns d1 into 0 and the returned
Delta for the strike is Φ(0) = 1/2, not NaN. -/
theorem calculate_greeks_sigma_zero_delta_not_nan :
    (calculate_greeks (RF.val 100) [RF.val 100] (RF.val 0.5) (RF.val 0.02) (RF.val 0)
      OptionType.call).Delta = [RF.val (1 / 2)] ∧
    RF.val (1 / 2) ≠ RF.nan := by
  constructor
  · norm_num [calculate_greeks, greekRow, safe_divide, RF.sqrt, RF.cdf, RF.div, RF.log,
      normCdf_zero]
  · simp

/-- C1 as amended: the guard of `calculate_greeks` fires exactly on NaN in
S, T, r or sigma (the strike is not tested, and sigma = 0 is not degenerate
here); when it fires, every Greek of every strike is NaN and all strikes are
still processed (each output list is the full-length all-NaN list). -/
theorem calculate_greeks_nan_guard (S : RF) (Ks : List RF) (T r sigma : RF)
    (ot : OptionType) (h : S.isnan ∨ T.isnan ∨ r.isnan ∨ sigma.isnan) :
    calculate_greeks S Ks T r sigma ot =
      ⟨List.replicate Ks.length RF.nan, List.replicate Ks.length RF.nan,
       List.replicate Ks.length RF.nan, List.replicate Ks.length RF.nan,
       List.replicate Ks.length RF.nan⟩ := by
  have hrow : ∀ K, greekRow S T r sigma ot K = ⟨RF.nan, RF.nan, RF.nan, RF.nan, RF.nan⟩ :=
    fun K => greekRow_nan_guard S T r sigma ot K (by tauto)
  simp [calculate_greeks, hrow]

/-- Witness for the amended C1: a NaN spot over a two-strike batch yields
all-NaN Greeks of full length. -/
theorem calculate_greeks_nan_guard_witness :
    calculate_greeks RF.nan [RF.val 100, RF.val 90] (RF.val 0.5) (RF.val 0.02)
      (RF.val 0.3) OptionType.call =
      ⟨[RF.nan, RF.nan], [RF.nan, RF.nan], [RF.nan, RF.nan], [RF.nan, RF.nan],
        [RF.nan, RF.nan]⟩ := by
  have h := calculate_greeks_nan_guard RF.nan [RF.val 100, RF.val 90] (RF.val 0.5)
    (RF.val 0.02) (RF.val 0.3) OptionType.call (Or.inl trivial)
  simpa using h

/-- The classical Black-Scholes density identity
`K·e^(−rT)·φ(d2) = S·φ(d1)`, which makes the d1/d2 derivative terms cancel. -/
theorem bs_density_identity (S K T r sigma : ℝ) (hS : 0 < S) (hK : 0 < K) (hT : 0 < T)
    (hsig : sigma ≠ 0) :
    K * Real.exp (-(r * T)) * normPdf (d2R S K T r sigma) =
      S * normPdf (d1R S K T r sigma) := by
  have hsq : Real.sqrt T * Real.sqrt T = T := Real.mul_self_sqrt (le_of_lt hT)
  have hw : 0 < Real.sqrt T := Real.sqrt_pos.mpr hT
  have hq : sigma * Real.sqrt T ≠ 0 := mul_ne_zero hsig (ne_of_gt hw)
  have hd1q : d1R S K T r sigma * (sigma * Real.sqrt T)
      = Real.log (S / K) + (r + 0.5 * (sigma * sigma)) * T := by
    unfold d1R
    field_simp
  have hqq : (sigma * Real.sqrt T) * (sigma * Real.sqrt T) = sigma * sigma * T := by
    rw [show (sigma * Real.sqrt T) * (sigma * Real.sqrt T)
        = sigma * sigma * (Real.sqrt T * Real.sqrt T) from by ring, hsq]
  have hd2sq : -(d2R S K T r sigma ^ 2) / 2
      = -(d1R S K T r sigma ^ 2) / 2 + Real.log (S / K) + r * T := by
    unfold d2R
    linear_combination hd1q - (1 / 2) * hqq
  unfold normPdf
  rw [hd2sq, Real.exp_add, Real.exp_add, Real.exp_log (div_pos hS hK), Real.exp_neg]
  field_simp
  ring

/-- Derivative of the call price in the spot: exactly `Φ(d1)` (the call
Delta), on the valid domain. -/
theorem bsCallR_hasDerivAt_spot (K T r sigma : ℝ) (hK : 0 < K) (hT : 0 < T)
    (hsig : 0 < sigma) (S : ℝ) (hS : 0 < S) :
    HasDerivAt (fun x => bsCallR x K T r sigma) (normCdf (d1R S K T r sigma)) S := by
  unfold bsCallR
  have hSK : S / K ≠ 0 := ne_of_gt (div_pos hS hK)
  have hd1e : ∃ dd, HasDerivAt (fun x => d1R x K T r sigma) dd S := by
    have h := ((((hasDerivAt_id S).div_const K).log hSK).add_const
      ((r + 0.5 * (sigma * sigma)) * T)).div_const (sigma * Real.sqrt T)
    exact ⟨_, by unfold d1R; exact h⟩
  obtain ⟨dd, hd1⟩ := hd1e
  have hd2 : HasDerivAt (fun x => d2R x K T r sigma) dd S := by
    unfold d2R
    exact hd1.sub_const (sigma * Real.sqrt T)
  have hc1 : HasDerivAt (fun x => normCdf (d1R x K T r sigma))
      (normPdf (d1R S K T r sigma) * dd) S :=
    (hasDerivAt_normCdf (d1R S K T r sigma)).comp S hd1
  have hc2 : HasDerivAt (fun x => normCdf (d2R x K T r sigma))
      (normPdf (d2R S K T r sigma) * dd) S :=
    (hasDerivAt_normCdf (d2R S K T r sigma)).comp S hd2
  have hterm1 : HasDerivAt (fun x => x * normCdf (d1R x K T r sigma))
      (1 * normCdf (d1R S K T r sigma) + S * (normPdf (d1R S K T r sigma) * dd)) S :=
    (hasDerivAt_id S).mul hc1
  have hterm2 : HasDerivAt
      (fun x => K * Real.exp (-(r * T)) * normCdf (d2R x K T r sigma))
      (K * Real.exp (-(r * T)) * (normPdf (d2R S K T r sigma) * dd)) S :=
    hc2.const_mul (K * Real.exp (-(r * T)))
  have hsum := hterm1.sub hterm2
  have hkey : 1 * normCdf (d1R S K T r sigma) + S * (normPdf (d1R S K T r sigma) * dd) -
      K * Real.exp (-(r * T)) * (normPdf (d2R S K T r sigma) * dd)
      = normCdf (d1R S K T r sigma) := by
    have hid := bs_density_identity S K T r sigma hS hK hT (ne_of_gt hsig)
    linear_combination (-dd) * hid
  rw [hkey] at hsum
  exact hsum

/-- Derivative of the call price in the volatility: exactly `S·φ(d1)·√T`
(the unscaled Vega), on the valid domain. -/
theorem bsCallR_hasDerivAt_sigma (S K T r : ℝ) (hS : 0 < S) (hK : 0 < K) (hT : 0 < T)
    (sigma : ℝ) (hsig : 0 < sigma) :
    HasDerivAt (fun s => bsCallR S K T r s)
      (S * normPdf (d1R S K T r sigma) * Real.sqrt T) sigma := by
  unfold bsCallR
  have hw : 0 < Real.sqrt T := Real.sqrt_pos.mpr hT
  have hden : sigma * Real.sqrt T ≠ 0 := mul_ne_zero (ne_of_gt hsig) (ne_of_gt hw)
  have hd1e : ∃ dd, HasDerivAt (fun s => d1R S K T r s) dd sigma := by
    have h := (((((hasDerivAt_id sigma).mul (hasDerivAt_id sigma)).const_mul
        (0.5 : ℝ)).const_add r).mul_const T).const_add (Real.log (S / K)) |>.div
      ((hasDerivAt_id sigma).mul_const (Real.sqrt T)) hden
    exact ⟨_, by unfold d1R; exact h⟩
  obtain ⟨dd, hd1⟩ := hd1e
  have hd2 : HasDerivAt (fun s => d2R S K T r s) (dd - 1 * Real.sqrt T) sigma := by
    unfold d2R
    exact hd1.sub ((hasDerivAt_id sigma).mul_const (Real.sqrt T))
  have hc1 : HasDerivAt (fun s => normCdf (d1R S K T r s))
      (normPdf (d1R S K T r sigma) * dd) sigma :=
    (hasDerivAt_normCdf (d1R S K T r sigma)).comp sigma hd1
  have hc2 : HasDerivAt (fun s => normCdf (d2R S K T r s))
      (normPdf (d2R S K T r sigma) * (dd - 1 * Real.sqrt T)) sigma :=
    (hasDerivAt_normCdf (d2R S K T r sigma)).comp sigma hd2
  have hterm1 : HasDerivAt (fun s => S * normCdf (d1R S K T r s))
      (S * (normPdf (d1R S K T r sigma) * dd)) sigma :=
    hc1.const_mul S
  have hterm2 : HasDerivAt
      (fun s => K * Real.exp (-(r * T)) * normCdf (d2R S K T r s))
      (K * Real.exp (-(r * T)) * (normPdf (d2R S K T r sigma) * (dd - 1 * Real.sqrt T)))
      sigma :=
    hc2.const_mul (K * Real.exp (-(r * T)))
  have hsum := hterm1.sub hterm2
  have hkey : S * (normPdf (d1R S K T r sigma) * dd) -
      K * Real.exp (-(r * T)) * (normPdf (d2R S K T r sigma) * (dd - 1 * Real.sqrt T))
      = S * normPdf (d1R S K T r sigma) * Real.sqrt T := by
    have hid := bs_density_identity S K T r sigma hS hK hT (ne_of_gt hsig)
    linear_combination (1 * Real.sqrt T - dd) * hid
  rw [hkey] at hsum
  exact hsum

/-- The call price is non-decreasing in the spot on the positive half-line. -/
theorem bsCallR_mono_spot (K T r sigma : ℝ) (hK : 0 < K) (hT : 0 < T) (hsig : 0 < sigma) :
    MonotoneOn (fun x => bsCallR x K T r sigma) (Set.Ioi 0) := by
  have hderiv : ∀ x ∈ Set.Ioi (0 : ℝ), HasDerivAt (fun y => bsCallR y K T r sigma)
      (normCdf (d1R x K T r sigma)) x :=
    fun x hx => bsCallR_hasDerivAt_spot K T r sigma hK hT hsig x hx
  refine monotoneOn_of_deriv_nonneg (convex_Ioi 0) ?_ ?_ ?_
  · exact fun x hx => (hderiv x hx).continuousAt.continuousWithinAt
  · rw [interior_Ioi]
    exact fun x hx => (hderiv x hx).differentiableAt.differentiableWithinAt
  · intro x hx
    rw [interior_Ioi] at hx
    rw [(hderiv x hx).deriv]
    exact normCdf_nonneg _

/-- The call price is non-decreasing in the volatility on the positive
half-line. -/
theorem bsCallR_mono_sigma (S K T r : ℝ) (hS : 0 < S) (hK : 0 < K) (hT : 0 < T) :
    MonotoneOn (fun s => bsCallR S K T r s) (Set.Ioi 0) := by
  have hderiv : ∀ s ∈ Set.Ioi (0 : ℝ), HasDerivAt (fun u => bsCallR S K T r u)
      (S * normPdf (d1R S K T r s) * Real.sqrt T) s :=
    fun s hs => bsCallR_hasDerivAt_sigma S K T r hS hK hT s hs
  refine monotoneOn_of_deriv_nonneg (convex_Ioi 0) ?_ ?_ ?_
  · exact fun s hs => (hderiv s hs).continuousAt.continuousWithinAt
  · rw [interior_Ioi]
    exact fun s hs => (hderiv s hs).differentiableAt.differentiableWithinAt
  · intro s hs
    rw [interior_Ioi] at hs
    rw [(hderiv s hs).deriv]
    exact mul_nonneg (mul_nonneg (le_of_lt hS) (normPdf_nonneg _)) (Real.sqrt_nonneg T)

/-- C7: on the valid pricing domain (S, K > 0 from `PricingInputs`, T > 0,
sigma > 0) the call price of `black_scholes` is monotonically non-decreasing
in the spot S and in the volatility sigma, for fixed K, T, r. -/
theorem black_scholes_call_monotone :
    (∀ K T r sigma S1 S2 : ℝ, 0 < K → 0 < T → 0 < sigma → 0 < S1 → S1 ≤ S2 →
      RF.le (black_scholes (RF.val S1) (RF.val K) (RF.val T) (RF.val r) (RF.val sigma)
          OptionType.call)
        (black_scholes (RF.val S2) (RF.val K) (RF.val T) (RF.val r) (RF.val sigma)
          OptionType.call)) ∧
    (∀ S K T r sigma1 sigma2 : ℝ, 0 < S → 0 < K → 0 < T → 0 < sigma1 → sigma1 ≤ sigma2 →
      RF.le (black_scholes (RF.val S) (RF.val K) (RF.val T) (RF.val r) (RF.val sigma1)
          OptionType.call)
        (black_scholes (RF.val S) (RF.val K) (RF.val T) (RF.val r) (RF.val sigma2)
          OptionType.call)) := by
  constructor
  · intro K T r sigma S1 S2 hK hT hsig hS1 hle
    have hS2 : 0 < S2 := lt_of_lt_of_le hS1 hle
    rw [(black_scholes_eq_bsR S1 K T r sigma hS1 hK hT (ne_of_gt hsig)).1,
      (black_scholes_eq_bsR S2 K T r sigma hS2 hK hT (ne_of_gt hsig)).1, RF.le_val]
    exact bsCallR_mono_spot K T r sigma hK hT hsig (Set.mem_Ioi.mpr hS1)
      (Set.mem_Ioi.mpr hS2) hle
  · intro S K T r sigma1 sigma2 hS hK hT hsig1 hle
    have hsig2 : 0 < sigma2 := lt_of_lt_of_le hsig1 hle
    rw [(black_scholes_eq_bsR S K T r sigma1 hS hK hT (ne_of_gt hsig1)).1,
      (black_scholes_eq_bsR S K T r sigma2 hS hK hT (ne_of_gt hsig2)).1, RF.le_val]
    exact bsCallR_mono_sigma S K T r hS hK hT (Set.mem_Ioi.mpr hsig1)
      (Set.mem_Ioi.mpr hsig2) hle

/-- Witness for C7 at concrete spots 90 ≤ 110 and volatilities 0.1 ≤ 0.3. -/
theorem black_scholes_call_monotone_witness :
    RF.le (black_scholes (RF.val 90) (RF.val 100) (RF.val 1) (RF.val 0.02) (RF.val 0.2)
        OptionType.call)
      (black_scholes (RF.val 110) (RF.val 100) (RF.val 1) (RF.val 0.02) (RF.val 0.2)
        OptionType.call) ∧
    RF.le (black_scholes (RF.val 100) (RF.val 100) (RF.val 1) (RF.val 0.02) (RF.val 0.1)
        OptionType.call)
      (black_scholes (RF.val 100) (RF.val 100) (RF.val 1) (RF.val 0.02) (RF.val 0.3)
        OptionType.call) :=
  ⟨black_scholes_call_monotone.1 100 1 0.02 0.2 90 110 (by norm_num) (by norm_num)
      (by norm_num) (by norm_num) (by norm_num),
   black_scholes_call_monotone.2 100 100 1 0.02 0.1 0.3 (by norm_num) (by norm_num)
      (by norm_num) (by norm_num) (by norm_num)⟩
